import Mathlib

/-!
Shallow embedding of `src/app.py` (a Flask app that approximates scalar
target functions on [0,1] with a random-features model and closed-form
ridge regression), together with theorems settling the frozen claims
about it.

Modelling conventions:
* Python strings are modelled as `List Char`; `str.strip` as dropping
  whitespace on both ends; `int(p)` as parsing an optional sign followed
  by ASCII digits (the fragment of Python's `int` exercised here).
* numpy float64 arithmetic is idealised as real arithmetic (`ℝ`).
* numpy arrays are modelled untyped, as total functions `ℕ → ℝ` and
  `ℕ → ℕ → ℝ` with the relevant extents carried explicitly, mirroring
  numpy's dynamically shaped arrays.
* `np.random.default_rng(seed)` is modelled as a deterministic state:
  an underlying value stream (a fixed oracle function of the seed,
  abstracting the PCG64 bit stream), a position into it, and a trace
  recording every distribution draw the generator has served.  A draw
  `rng.normal(mean, scale, n)` returns `mean + scale * stream` values
  and advances the position; `rng.uniform(lo, hi, n)` returns
  `lo + (hi - lo) * stream` values.  The trace makes "which
  distribution was drawn, with which parameters, and how many times"
  a provable statement.
* `np.linalg.solve(A, b)` is modelled as `A⁻¹ *ᵥ b` with Mathlib's
  nonsingular inverse; theorems about the solve carry the hypothesis
  `IsUnit A.det` (the case where numpy's solve succeeds; on a singular
  matrix the Python code raises instead of returning).
-/

open Matrix

/-- Splits a character list at every comma, like Python `s.split(",")`
(adjacent commas give empty parts; no collapsing). -/
def splitOnComma : List Char → List (List Char)
  | [] => [[]]
  | c :: rest =>
    if c = ',' then [] :: splitOnComma rest
    else
      match splitOnComma rest with
      | [] => [[c]]
      | h :: t => (c :: h) :: t

/-- Python `str.strip()`: remove leading and trailing whitespace. -/
def strip (l : List Char) : List Char :=
  ((l.dropWhile Char.isWhitespace).reverse.dropWhile Char.isWhitespace).reverse

/-- Value of a nonempty all-ASCII-digit character list, `none` otherwise. -/
def digitsVal (l : List Char) : Option ℕ :=
  if l = [] then none
  else if l.all Char.isDigit then
    some (l.foldl (fun acc c => 10 * acc + (c.toNat - 48)) 0)
  else none

/-- Python `int(p)` on an already-stripped token: optional sign, then
ASCII digits; anything else raises (modelled as `none`). -/
def pyInt : List Char → Option ℤ
  | '+' :: rest => (digitsVal rest).map fun n => (n : ℤ)
  | '-' :: rest => (digitsVal rest).map fun n => -(n : ℤ)
  | l => (digitsVal l).map fun n => (n : ℤ)

/-- Runs `pyInt` over a token list; any failure aborts the whole loop,
mirroring the `try`/`except` around the parsing loop in `parse_layers`. -/
def mapIntOpt : List (List Char) → Option (List ℤ)
  | [] => some []
  | p :: rest =>
    match pyInt p, mapIntOpt rest with
    | some z, some zs => some (z :: zs)
    | _, _ => none

/-- The per-token clamp `max(1, min(2048, int(p)))` from `parse_layers`. -/
def clampW (z : ℤ) : ℤ := max 1 (min 2048 z)

/-- The stripped, nonempty comma-separated parts of the layer string:
`[p.strip() for p in s.split(",") if p.strip()]`. -/
def layerParts (s : List Char) : List (List Char) :=
  ((splitOnComma s).map strip).filter (fun p => p ≠ [])

/-- `parse_layers` from `src/app.py`: split on commas, strip, drop empty
parts; an empty part list yields the default `[64]`; otherwise the first
ten parts are parsed as integers (failure gives `none`) and each is
clamped to `[1, 2048]`. -/
def parse_layers (s : List Char) : Option (List ℤ) :=
  let parts := layerParts s
  if parts = [] then some [64]
  else
    match mapIntOpt (parts.take 10) with
    | none => none
    | some zs => some (zs.map clampW)

/-! ### Random-generator model -/

/-- A record of one distribution draw served by the generator. -/
inductive DrawSpec where
  | normal (mean scale : ℝ) (count : ℕ)
  | uniform (lo hi : ℝ) (count : ℕ)

/-- Untyped numpy-style 2-D array of float64, idealised over ℝ. -/
def MatF : Type := ℕ → ℕ → ℝ

/-- Deterministic model of `np.random.Generator`: a fixed underlying
value stream, a position into it, and a trace of the draws served. -/
structure Rng where
  stream : ℕ → ℝ
  pos : ℕ
  trace : List DrawSpec

/-- `rng.normal(mean, scale, size=(rows, cols))`. -/
noncomputable def Rng.normalMat (r : Rng) (mean scale : ℝ) (rows cols : ℕ) :
    MatF × Rng :=
  (fun i j => mean + scale * r.stream (r.pos + i * cols + j),
   ⟨r.stream, r.pos + rows * cols,
    r.trace ++ [DrawSpec.normal mean scale (rows * cols)]⟩)

/-- `rng.normal(mean, scale, size=(n,))`. -/
noncomputable def Rng.normalVec (r : Rng) (mean scale : ℝ) (n : ℕ) :
    (ℕ → ℝ) × Rng :=
  (fun i => mean + scale * r.stream (r.pos + i),
   ⟨r.stream, r.pos + n, r.trace ++ [DrawSpec.normal mean scale n]⟩)

/-- `rng.uniform(lo, hi, size=(n,))`. -/
noncomputable def Rng.uniformVec (r : Rng) (lo hi : ℝ) (n : ℕ) :
    (ℕ → ℝ) × Rng :=
  (fun i => lo + (hi - lo) * r.stream (r.pos + i),
   ⟨r.stream, r.pos + n, r.trace ++ [DrawSpec.uniform lo hi n]⟩)

/-- `np.random.default_rng(seed)`: a fresh generator, a pure function of
the seed through the fixed stream oracle. -/
def default_rng (oracle : ℤ → ℕ → ℝ) (seed : ℤ) : Rng :=
  ⟨oracle seed, 0, []⟩

/-! ### Targets and activations -/

/-- Target `sine`: `np.sin(2 * np.pi * x)`. -/
noncomputable def f_sine (x : ℝ) : ℝ := Real.sin (2 * Real.pi * x)

/-- Target `abs`: `np.abs(x - 0.5)`. -/
noncomputable def f_abs (x : ℝ) : ℝ := |x - 0.5|

/-- Target `bump`: `np.exp(-60.0 * (x - 0.5) ** 2)`. -/
noncomputable def f_bump (x : ℝ) : ℝ := Real.exp (-60 * (x - 0.5) ^ 2)

/-- Target `cubic`: `(2 * x - 1) ** 3`. -/
noncomputable def f_cubic (x : ℝ) : ℝ := (2 * x - 1) ^ 3

/-- Target `square`: `0.8 * np.sign(np.sin(2 * np.pi * x))`. -/
noncomputable def f_square (x : ℝ) : ℝ :=
  0.8 * Real.sign (Real.sin (2 * Real.pi * x))

/-- The `TARGETS` table: key ↦ (display name, function). -/
noncomputable def TARGETS : List (String × String × (ℝ → ℝ)) :=
  [("sine", "sin(2πx)", f_sine),
   ("abs", "|x - 0.5|", f_abs),
   ("bump", "Gaussian bump", f_bump),
   ("cubic", "(2x-1)^3", f_cubic),
   ("square", "square wave (discontinuous)", f_square)]

/-- Activation `tanh`. -/
noncomputable def act_tanh (z : ℝ) : ℝ := Real.tanh z

/-- Activation `relu`: `np.maximum(0.0, z)`. -/
noncomputable def act_relu (z : ℝ) : ℝ := max 0 z

/-- Activation `sigmoid`: `1 / (1 + np.exp(-np.clip(z, -60, 60)))`. -/
noncomputable def act_sigmoid (z : ℝ) : ℝ :=
  1 / (1 + Real.exp (-(max (-60) (min 60 z))))

/-- The `ACTIVATIONS` table: key ↦ (display name, function). -/
noncomputable def ACTIVATIONS : List (String × String × (ℝ → ℝ)) :=
  [("tanh", "tanh", act_tanh),
   ("relu", "ReLU", act_relu),
   ("sigmoid", "sigmoid", act_sigmoid)]

/-! ### Feature map builder -/

/-- `he_scale(fan_in, act_key)` from `src/app.py`. -/
noncomputable def he_scale (fan_in : ℕ) (act_key : String) : ℝ :=
  if act_key = "relu" then Real.sqrt (2 / ((max 1 fan_in : ℕ) : ℝ))
  else 1 / Real.sqrt ((max 1 fan_in : ℕ) : ℝ)

/-- One layer's parameters: `(W, b)` with the shapes they were drawn at. -/
structure Layer where
  inDim : ℕ
  width : ℕ
  W : MatF
  b : ℕ → ℝ

/-- The loop body of `init_random_params`, recursing over the remaining
widths with the current fan-in `in_dim`. -/
noncomputable def init_params_aux (act_key : String) :
    ℕ → List ℕ → Rng → List Layer × Rng
  | _, [], r => ([], r)
  | in_dim, width :: rest, r =>
    let scale := he_scale in_dim act_key
    let Wr := r.normalMat 0 scale in_dim width
    let br := Wr.2.uniformVec (-1) 1 width
    let tail := init_params_aux act_key width rest br.2
    (⟨in_dim, width, Wr.1, br.1⟩ :: tail.1, tail.2)

/-- `init_random_params(layer_sizes, act_key, rng)`: starting from
`in_dim = 1`, draw each layer's weights `rng.normal(0, he_scale, (in_dim,
width))` and biases `rng.uniform(-1, 1, width)`. -/
noncomputable def init_random_params (layer_sizes : List ℕ) (act_key : String)
    (rng : Rng) : List Layer × Rng :=
  init_params_aux act_key 1 layer_sizes rng

/-- Matrix product of untyped arrays with explicit inner extent `k`. -/
noncomputable def matmulF (A : MatF) (k : ℕ) (B : MatF) : MatF :=
  fun i j => ∑ t ∈ Finset.range k, A i t * B t j

/-- `forward_features(x, params, act_fn)`: start from `x.reshape(-1, 1)`
and fold `H ↦ act_fn(H @ W + b)` over the layers. -/
noncomputable def forward_features (x : ℕ → ℝ) (params : List Layer)
    (act_fn : ℝ → ℝ) : MatF :=
  params.foldl
    (fun H l => fun i j => act_fn (matmulF H l.inDim l.W i j + l.b j))
    (fun i j => if j = 0 then x i else 0)

/-! ### Ridge fitter and predictor -/

/-- `np.concatenate([np.ones((N, 1)), Phi], axis=1)`: prepend a column
of ones. -/
noncomputable def augment (Phi : MatF) : MatF :=
  fun i j => if j = 0 then 1 else Phi i (j - 1)

/-- The coefficient matrix `Phi_aug.T @ Phi_aug + lam * np.eye(W + 1)`. -/
noncomputable def ridgeA (N W : ℕ) (Phi : MatF) (lam : ℝ) :
    Matrix (Fin (W + 1)) (Fin (W + 1)) ℝ :=
  fun i j =>
    (∑ t ∈ Finset.range N, augment Phi t i * augment Phi t j) +
      lam * (if i = j then 1 else 0)

/-- The right-hand side `Phi_aug.T @ y`. -/
noncomputable def ridgeB (N W : ℕ) (Phi : MatF) (y : ℕ → ℝ) :
    Fin (W + 1) → ℝ :=
  fun j => ∑ t ∈ Finset.range N, augment Phi t j * y t

/-- `fit_ridge_closed_form(Phi, y, lam)` with `Phi` of extent `N × W`:
solve `(Phi_aug.T @ Phi_aug + lam * I) w = Phi_aug.T @ y`, modelled as
multiplication by the nonsingular inverse; entries past `W` are padding. -/
noncomputable def fit_ridge_closed_form (N W : ℕ) (Phi : MatF) (y : ℕ → ℝ)
    (lam : ℝ) : ℕ → ℝ :=
  fun j =>
    if h : j < W + 1 then ((ridgeA N W Phi lam)⁻¹ *ᵥ ridgeB N W Phi y) ⟨j, h⟩
    else 0

/-- `predict_with_weights(Phi, w)`: `Phi_aug @ w` with `Phi` of width `W`. -/
noncomputable def predict_with_weights (W : ℕ) (Phi : MatF) (w : ℕ → ℝ) :
    ℕ → ℝ :=
  fun i => ∑ j ∈ Finset.range (W + 1), augment Phi i j * w j

/-- `np.linspace(a, b, n)` (endpoint included). -/
noncomputable def linspace (a b : ℝ) (n : ℕ) : ℕ → ℝ :=
  fun i => a + (b - a) * (i : ℝ) / ((n : ℝ) - 1)

/-- `make_grid(n)` from `src/app.py`. -/
noncomputable def make_grid (n : ℕ) : ℕ → ℝ := linspace 0 1 n

/-- Width of the feature matrix produced by `forward_features`: the last
layer's width (or 1 for the bare reshaped input). -/
def featW (sizes : List ℕ) : ℕ := sizes.getLastD 1

/-! ### Evaluation driver -/

/-- All intermediate artifacts of one `/approximate` core evaluation,
in the order the source computes them. -/
structure CoreRun where
  x_train : ℕ → ℝ
  y_clean : ℕ → ℝ
  rng_start : Rng
  y_train : ℕ → ℝ
  rng_after_noise : Rng
  params : List Layer
  rng_after_params : Rng
  Phi_train : MatF
  w : ℕ → ℝ
  x_grid : ℕ → ℝ
  y_true : ℕ → ℝ
  Phi_grid : MatF
  y_pred : ℕ → ℝ
  mse : ℝ

/-- Lines 116-132 of `src/app.py`: seed the generator, build the
512-point training grid and labels (optionally noise-perturbed), draw
the feature-map parameters once, build training features, fit, build
the 500-point evaluation grid and its features from the same
parameters, predict, and take the mean squared error. -/
noncomputable def approximateFull (oracle : ℤ → ℕ → ℝ) (f act_fn : ℝ → ℝ)
    (act_key : String) (sizes : List ℕ) (lam : ℝ) (seed : ℤ)
    (noise_std : ℝ) : CoreRun :=
  let rng := default_rng oracle seed
  let x_train := linspace 0 1 512
  let y_clean := fun i => f (x_train i)
  let noisy :=
    if noise_std > 0 then
      let nv := rng.normalVec 0 noise_std 512
      (fun i => y_clean i + nv.1 i, nv.2)
    else (y_clean, rng)
  let pr := init_random_params sizes act_key noisy.2
  let Phi_train := forward_features x_train pr.1 act_fn
  let w := fit_ridge_closed_form 512 (featW sizes) Phi_train noisy.1 lam
  let x_grid := make_grid 500
  let y_true := fun i => f (x_grid i)
  let Phi_grid := forward_features x_grid pr.1 act_fn
  let y_pred := predict_with_weights (featW sizes) Phi_grid w
  let mse := (∑ i ∈ Finset.range 500, (y_true i - y_pred i) ^ 2) / 500
  ⟨x_train, y_clean, rng, noisy.1, noisy.2, pr.1, pr.2, Phi_train, w,
   x_grid, y_true, Phi_grid, y_pred, mse⟩

/-- The JSON payload of a successful `/approximate` response. -/
structure ApproxOut where
  x : List ℝ
  y_true : List ℝ
  y_pred : List ℝ
  mse : ℝ
  target : String
  activationName : String
  layers : List ℤ
  depth : ℕ
  lambda : ℝ
  seed : ℤ
  noise : ℝ

/-- Outcome of the `/approximate` route: one of the three 400-responses
or the JSON payload. -/
inductive ApproxResult where
  | badTargetOrAct
  | badLayersFormat
  | tooManyLayers
  | ok (out : ApproxOut)

/-- Holds exactly when the route returned the success payload. -/
def ApproxResult.isOk : ApproxResult → Prop
  | .ok _ => True
  | _ => False

/-- The `/approximate` route (lines 96-148 of `src/app.py`): validate
target and activation keys, parse the layer string, reject a parse
failure or a list longer than 10, then run the core and package the
payload. -/
noncomputable def approximate (oracle : ℤ → ℕ → ℝ) (target_key act_key : String)
    (layers_str : List Char) (lam : ℝ) (seed : ℤ) (noise_std : ℝ) :
    ApproxResult :=
  match List.lookup target_key TARGETS, List.lookup act_key ACTIVATIONS with
  | some tf, some af =>
    match parse_layers layers_str with
    | none => .badLayersFormat
    | some ls =>
      if 10 < ls.length then .tooManyLayers
      else
        let sizes := ls.map Int.toNat
        let R := approximateFull oracle tf.2 af.2 act_key sizes lam seed noise_std
        .ok
          { x := List.ofFn (fun i : Fin 500 => R.x_grid i)
            y_true := List.ofFn (fun i : Fin 500 => R.y_true i)
            y_pred := List.ofFn (fun i : Fin 500 => R.y_pred i)
            mse := R.mse
            target := tf.1
            activationName := af.1
            layers := ls
            depth := ls.length
            lambda := lam
            seed := seed
            noise := noise_std }
  | _, _ => .badTargetOrAct

/-- One HTTP request to `/approximate`, with all arguments resolved. -/
structure Request where
  target : String
  activationKey : String
  layers : List Char
  lam : ℝ
  seed : ℤ
  noise : ℝ

/-- Handle one request. -/
noncomputable def handle (oracle : ℤ → ℕ → ℝ) (r : Request) : ApproxResult :=
  approximate oracle r.target r.activationKey r.layers r.lam r.seed r.noise

/-- A sequence of independent evaluation calls served in order; the app
keeps no state across requests, so serving is a pure map. -/
noncomputable def serve (oracle : ℤ → ℕ → ℝ) (reqs : List Request) :
    List ApproxResult :=
  reqs.map (handle oracle)

/-- Squared Euclidean norm of the first `W + 1` entries of a weight
vector (the extent returned by the fitter). -/
noncomputable def sqnorm (W : ℕ) (w : ℕ → ℝ) : ℝ :=
  ∑ j ∈ Finset.range (W + 1), (w j) ^ 2

/-- The bias-augmented feature matrix as a typed `N x (W+1)` matrix,
used to relate the entrywise normal-equations arrays to matrix algebra. -/
noncomputable def augMat (N W : ℕ) (Phi : MatF) : Matrix (Fin N) (Fin (W + 1)) ℝ :=
  fun i j => augment Phi i j

/-! ### Helper lemmas -/

theorem clampW_bounds (z : ℤ) :
    1 ≤ clampW z ∧ clampW z ≤ 2048 ∧ (z ≤ 0 → clampW z = 1) ∧
      (2048 < z → clampW z = 2048) := by
  simp only [clampW, le_max_iff, max_le_iff, le_min_iff, min_le_iff]
  omega

theorem mapIntOpt_length : ∀ (ps : List (List Char)) (zs : List ℤ),
    mapIntOpt ps = some zs → zs.length = ps.length := by
  intro ps
  induction ps with
  | nil => intro zs h; simp [mapIntOpt] at h; simp [← h]
  | cons p rest ih =>
    intro zs h
    simp only [mapIntOpt] at h
    cases hp : pyInt p with
    | none => rw [hp] at h; simp at h
    | some z =>
      cases hr : mapIntOpt rest with
      | none => rw [hp, hr] at h; simp at h
      | some zs2 =>
        rw [hp, hr] at h
        simp at h
        subst h
        simp [ih zs2 hr]

theorem parse_layers_cases (s : List Char) (l : List ℤ)
    (h : parse_layers s = some l) :
    (layerParts s = [] ∧ l = [64]) ∨
      (layerParts s ≠ [] ∧ ∃ zs,
        mapIntOpt ((layerParts s).take 10) = some zs ∧ l = zs.map clampW) := by
  by_cases hp : layerParts s = []
  · left
    refine ⟨hp, ?_⟩
    simp only [parse_layers, hp, if_pos] at h
    simpa using h.symm
  · right
    refine ⟨hp, ?_⟩
    simp only [parse_layers, hp, if_neg, ite_false] at h
    cases hm : mapIntOpt ((layerParts s).take 10) with
    | none => rw [hm] at h; simp at h
    | some zs => rw [hm] at h; simp at h; exact ⟨zs, rfl, h.symm⟩

theorem parse_layers_spec (s : List Char) (l : List ℤ)
    (h : parse_layers s = some l) :
    l ≠ [] ∧ l.length ≤ 10 ∧ ∀ w ∈ l, 1 ≤ w ∧ w ≤ 2048 := by
  rcases parse_layers_cases s l h with ⟨-, rfl⟩ | ⟨hne, zs, hm, rfl⟩
  · refine ⟨by simp, by simp, ?_⟩
    intro w hw
    simp at hw
    omega
  · have hlen : zs.length = ((layerParts s).take 10).length :=
      mapIntOpt_length _ _ hm
    have hle : zs.length ≤ 10 := by
      rw [hlen, List.length_take]
      exact min_le_left _ _
    have hpos : 0 < ((layerParts s).take 10).length := by
      rw [List.length_take]
      have : 0 < (layerParts s).length := List.length_pos.mpr hne
      omega
    have hzs : zs ≠ [] := by
      intro hz
      rw [hz] at hlen
      simp only [List.length_nil] at hlen
      omega
    refine ⟨by simpa using hzs, by simpa using hle, ?_⟩
    intro w hw
    rcases List.mem_map.mp hw with ⟨z, -, rfl⟩
    exact ⟨(clampW_bounds z).1, (clampW_bounds z).2.1⟩

theorem featW_pos (sizes : List ℕ) (hne : sizes ≠ [])
    (hall : ∀ w ∈ sizes, 1 ≤ w) : 1 ≤ featW sizes := by
  induction sizes with
  | nil => exact absurd rfl hne
  | cons a t ih =>
    cases t with
    | nil => simpa [featW] using hall a (by simp)
    | cons b t2 =>
      have := ih (by simp) (fun w hw => hall w (by simp [hw]))
      simpa [featW, List.getLastD] using this

/-! ### C9 -/

/-- C9: every integer token of an accepted layer specification is
clamped into `[1, 2048]` (`≤ 0` becomes 1, `> 2048` becomes 2048), so
an accepted specification never yields a zero-column feature matrix. -/
theorem parse_layers_clamps (s : List Char) (l : List ℤ)
    (h : parse_layers s = some l) :
    (∀ w ∈ l, 1 ≤ w ∧ w ≤ 2048) ∧
      (∀ z : ℤ, (z ≤ 0 → clampW z = 1) ∧ (2048 < z → clampW z = 2048)) ∧
      1 ≤ featW (l.map Int.toNat) := by
  obtain ⟨hne, -, hall⟩ := parse_layers_spec s l h
  refine ⟨hall, fun z => ⟨(clampW_bounds z).2.2.1, (clampW_bounds z).2.2.2⟩, ?_⟩
  refine featW_pos _ (by simpa using hne) ?_
  intro w hw
  rcases List.mem_map.mp hw with ⟨z, hz, rfl⟩
  have := (hall z hz).1
  omega

theorem parse_layers_clamps_witness :
    parse_layers ("0,-5,9999".toList) = some [1, 1, 2048] ∧
      ((∀ w ∈ ([1, 1, 2048] : List ℤ), 1 ≤ w ∧ w ≤ 2048) ∧
        (∀ z : ℤ, (z ≤ 0 → clampW z = 1) ∧ (2048 < z → clampW z = 2048)) ∧
        1 ≤ featW (([1, 1, 2048] : List ℤ).map Int.toNat)) :=
  ⟨by decide,
   parse_layers_clamps ("0,-5,9999".toList) [1, 1, 2048] (by decide)⟩

/-! ### C10 -/

/-- C10: `parse_layers` always returns `none` or a nonempty list of at
most ten integers in `[1, 2048]`; consequently the route's
`Max 10 layers allowed` branch can never be taken. -/
theorem parse_layers_total_route (s : List Char) :
    (parse_layers s = none ∨
      ∃ l, parse_layers s = some l ∧ l ≠ [] ∧ l.length ≤ 10 ∧
        ∀ w ∈ l, 1 ≤ w ∧ w ≤ 2048) ∧
      ∀ (oracle : ℤ → ℕ → ℝ) (t a : String) (lam : ℝ) (seed : ℤ) (ns : ℝ),
        approximate oracle t a s lam seed ns ≠ ApproxResult.tooManyLayers := by
  constructor
  · cases h : parse_layers s with
    | none => exact Or.inl rfl
    | some l => exact Or.inr ⟨l, rfl, parse_layers_spec s l h⟩
  · intro oracle t a lam seed ns hc
    unfold approximate at hc
    split at hc
    · split at hc
      · exact ApproxResult.noConfusion hc
      · next l hl =>
        split at hc
        · next hlt =>
          have := (parse_layers_spec s l hl).2.1
          omega
        · exact ApproxResult.noConfusion hc
    · exact ApproxResult.noConfusion hc

theorem parse_layers_total_route_witness :
    approximate (fun _ _ => 0) "sine" "tanh"
        ("1,2,3,4,5,6,7,8,9,10,11".toList) 0 0 0 ≠
      ApproxResult.tooManyLayers :=
  (parse_layers_total_route _).2 _ _ _ _ _ _

/-! ### C2 -/

/-- C2 counterexample: an empty layer specification is not rejected but
silently replaced by the default `[64]`, and an 11-layer specification
is not rejected but silently truncated to its first 10 entries; in both
cases the `/approximate` route proceeds to run the core and returns the
success payload rather than any validation failure. -/
theorem parse_layers_no_validation_failure :
    parse_layers ([] : List Char) = some [64] ∧
      parse_layers ("1,2,3,4,5,6,7,8,9,10,11".toList) =
        some [1, 2, 3, 4, 5, 6, 7, 8, 9, 10] ∧
      (approximate (fun _ _ => 0) "sine" "tanh" ([] : List Char)
          0.001 0 0).isOk ∧
      (approximate (fun _ _ => 0) "sine" "tanh"
          ("1,2,3,4,5,6,7,8,9,10,11".toList) 0.001 0 0).isOk := by
  refine ⟨by decide, by decide, ?_, ?_⟩ <;> exact trivial

/-- C2 amended: an empty part list makes `parse_layers` return the
default `[64]`, and a longer specification is truncated to its first
ten integer tokens (then clamped); moreover an empty specification
reaches the core: with valid target and activation keys the route
returns the success payload, not a validation failure. -/
theorem parse_layers_default_and_truncate (s : List Char) :
    (layerParts s = [] → parse_layers s = some [64]) ∧
      (layerParts s ≠ [] → ∀ zs,
        mapIntOpt ((layerParts s).take 10) = some zs →
          parse_layers s = some (zs.map clampW)) ∧
      (layerParts s = [] →
        ∀ (oracle : ℤ → ℕ → ℝ) (lam : ℝ) (seed : ℤ) (ns : ℝ),
          (approximate oracle "sine" "tanh" s lam seed ns).isOk) := by
  refine ⟨fun hp => by simp [parse_layers, hp], ?_, ?_⟩
  · intro hp zs hm
    simp only [parse_layers, hp, if_neg, ite_false, hm]
  · intro hp oracle lam seed ns
    have hparse : parse_layers s = some [64] := by simp [parse_layers, hp]
    unfold approximate
    rw [show List.lookup "sine" TARGETS = some ("sin(2πx)", f_sine) from rfl,
      show List.lookup "tanh" ACTIVATIONS = some ("tanh", act_tanh) from rfl,
      hparse]
    exact trivial

theorem parse_layers_default_and_truncate_witness :
    parse_layers (" , ".toList) = some [64] ∧
      parse_layers ("1,2,3,4,5,6,7,8,9,10,11".toList) =
        some (([1, 2, 3, 4, 5, 6, 7, 8, 9, 10] : List ℤ).map clampW) :=
  ⟨(parse_layers_default_and_truncate (" , ".toList)).1 (by decide),
   (parse_layers_default_and_truncate
      ("1,2,3,4,5,6,7,8,9,10,11".toList)).2.1 (by decide)
      [1, 2, 3, 4, 5, 6, 7, 8, 9, 10] (by decide)⟩

/-! ### C3 -/

/-- Modelled from the spec's wording for C3 and C5: the claimed
initialisation scale, `sqrt(2 / fan_in)` for relu and `1 / sqrt(fan_in)`
otherwise. -/
noncomputable def claimScale (act_key : String) (fan : ℕ) : ℝ :=
  if act_key = "relu" then Real.sqrt (2 / (fan : ℝ))
  else 1 / Real.sqrt (fan : ℝ)

/-- Modelled from the spec's wording for C5: the sequence of draws the
multi-layer initialiser is claimed to make — per layer, one normal draw
of `fan_in * width` weights at `claimScale` and one uniform draw of
`width` biases over `[-1, 1]`, with `fan_in` the previous width (1 at
the start). -/
noncomputable def claimTrace (act_key : String) : ℕ → List ℕ → List DrawSpec
  | _, [] => []
  | fan, w :: rest =>
    DrawSpec.normal 0 (claimScale act_key fan) (fan * w) ::
      DrawSpec.uniform (-1) 1 w :: claimTrace act_key w rest

theorem he_scale_one (act_key : String) :
    he_scale 1 act_key = if act_key = "relu" then Real.sqrt 2 else 1 := by
  by_cases h : act_key = "relu" <;>
    simp [he_scale, h, Real.sqrt_one]

/-- C3 counterexample: for a single-layer specification the code does
not draw weights at scale 2.0 and biases over `[-π, π]`; with
activation `tanh` and width 4 it draws the weight row at scale
`he_scale(1, "tanh") = 1` and the biases over `[-1, 1]`. -/
theorem single_layer_draws_counterexample :
    (init_random_params [4] "tanh" ⟨fun _ => 0, 0, []⟩).2.trace ≠
      [DrawSpec.normal 0 2 4, DrawSpec.uniform (-Real.pi) Real.pi 4] := by
  have hval : (init_random_params [4] "tanh" ⟨fun _ => 0, 0, []⟩).2.trace =
      [DrawSpec.normal 0 (he_scale 1 "tanh") 4, DrawSpec.uniform (-1) 1 4] := by
    simp [init_random_params, init_params_aux, Rng.normalMat, Rng.uniformVec]
  rw [hval, he_scale_one]
  simp only [if_neg (by decide : ¬("tanh" : String) = "relu")]
  intro h
  injection h with h1 h2
  injection h1 with hm hs hc
  norm_num at hs

/-- C3 amended: in single-layer mode (`layer_sizes = [W]`) the builder
draws the `1 × W` weight row from a normal distribution with mean 0 and
scale `he_scale(1, act)` — `sqrt 2` for relu and `1` for every other
activation — and draws the `W` biases uniformly from `[-1, 1]`. -/
theorem single_layer_draws (W : ℕ) (act_key : String) (r : Rng) :
    (init_random_params [W] act_key r).2.trace =
        r.trace ++ [DrawSpec.normal 0 (he_scale 1 act_key) W,
          DrawSpec.uniform (-1) 1 W] ∧
      he_scale 1 act_key = (if act_key = "relu" then Real.sqrt 2 else 1) := by
  refine ⟨?_, he_scale_one act_key⟩
  simp [init_random_params, init_params_aux, Rng.normalMat, Rng.uniformVec]

/-! ### C5 -/

theorem init_params_aux_trace (act_key : String) :
    ∀ (sizes : List ℕ) (fan : ℕ) (r : Rng), 1 ≤ fan →
      (∀ w ∈ sizes, 1 ≤ w) →
      ((init_params_aux act_key fan sizes r).2).trace =
        r.trace ++ claimTrace act_key fan sizes := by
  intro sizes
  induction sizes with
  | nil => intro fan r _ _; simp [init_params_aux, claimTrace]
  | cons w rest ih =>
    intro fan r hfan hall
    have hw : 1 ≤ w := hall w (by simp)
    have hmax : max 1 fan = fan := Nat.max_eq_right hfan
    have hscale : he_scale fan act_key = claimScale act_key fan := by
      by_cases h : act_key = "relu" <;> simp [he_scale, claimScale, h, hmax]
    simp only [init_params_aux, Rng.normalMat, Rng.uniformVec, claimTrace]
    rw [ih w _ hw (fun v hv => hall v (by simp [hv]))]
    simp [hscale, List.append_assoc]

/-- C5: in multi-layer mode each layer's weights are drawn from a
normal distribution with scale `sqrt(2 / fan_in)` for relu and
`1 / sqrt(fan_in)` otherwise — `fan_in` being the previous layer's
width, 1 for the first layer — and each layer's biases uniformly from
`[-1, 1]`, independently per layer (the generator serves exactly this
sequence of draws). -/
theorem init_random_params_trace (sizes : List ℕ) (act_key : String)
    (r : Rng) (hall : ∀ w ∈ sizes, 1 ≤ w) :
    (init_random_params sizes act_key r).2.trace =
      r.trace ++ claimTrace act_key 1 sizes :=
  init_params_aux_trace act_key sizes 1 r le_rfl hall

theorem init_random_params_trace_witness :
    (∀ w ∈ ([3, 2] : List ℕ), 1 ≤ w) ∧
      (init_random_params [3, 2] "relu" ⟨fun _ => 0, 0, []⟩).2.trace =
        (⟨fun _ => 0, 0, ([] : List DrawSpec)⟩ : Rng).trace ++
          claimTrace "relu" 1 [3, 2] :=
  ⟨by decide,
   init_random_params_trace [3, 2] "relu" ⟨fun _ => 0, 0, []⟩ (by decide)⟩

/-! ### C1 -/

theorem init_params_aux_trace_length (act_key : String) :
    ∀ (sizes : List ℕ) (fan : ℕ) (r : Rng),
      ((init_params_aux act_key fan sizes r).2).trace.length =
        r.trace.length + 2 * sizes.length := by
  intro sizes
  induction sizes with
  | nil => intro fan r; simp [init_params_aux]
  | cons w rest ih =>
    intro fan r
    simp only [init_params_aux, Rng.normalMat, Rng.uniformVec]
    rw [ih]
    simp
    ring

/-- C1: in every evaluation call the feature-map parameters are a
single artifact: they are produced by exactly one call to
`init_random_params` on the seeded generator (which serves exactly two
draws per layer — one weight draw and one bias draw), and the very same
artifact is the one used to build both the training-feature matrix and
the evaluation-grid feature matrix; after the parameters are drawn the
generator serves no further draw, so the grid pass re-draws nothing. -/
theorem approximate_shared_params (oracle : ℤ → ℕ → ℝ) (f act_fn : ℝ → ℝ)
    (act_key : String) (sizes : List ℕ) (lam : ℝ) (seed : ℤ)
    (noise_std : ℝ) (R : CoreRun)
    (hR : R = approximateFull oracle f act_fn act_key sizes lam seed noise_std) :
    (R.params, R.rng_after_params) =
        init_random_params sizes act_key R.rng_after_noise ∧
      R.Phi_train = forward_features R.x_train R.params act_fn ∧
      R.Phi_grid = forward_features R.x_grid R.params act_fn ∧
      R.rng_after_params.trace.length =
        R.rng_after_noise.trace.length + 2 * sizes.length := by
  subst hR
  refine ⟨rfl, rfl, rfl, ?_⟩
  exact init_params_aux_trace_length act_key sizes 1 _

theorem approximate_shared_params_witness :
    (approximateFull (fun _ _ => 0) f_sine act_tanh "tanh" [64] 1 0 0 =
        approximateFull (fun _ _ => 0) f_sine act_tanh "tanh" [64] 1 0 0) ∧
      ((approximateFull (fun _ _ => 0) f_sine act_tanh "tanh" [64] 1 0 0).params,
        (approximateFull (fun _ _ => 0) f_sine act_tanh "tanh" [64] 1 0 0).rng_after_params) =
        init_random_params [64] "tanh"
          (approximateFull (fun _ _ => 0) f_sine act_tanh "tanh" [64] 1 0 0).rng_after_noise ∧
      (approximateFull (fun _ _ => 0) f_sine act_tanh "tanh" [64] 1 0 0).Phi_train =
        forward_features
          (approximateFull (fun _ _ => 0) f_sine act_tanh "tanh" [64] 1 0 0).x_train
          (approximateFull (fun _ _ => 0) f_sine act_tanh "tanh" [64] 1 0 0).params
          act_tanh ∧
      (approximateFull (fun _ _ => 0) f_sine act_tanh "tanh" [64] 1 0 0).Phi_grid =
        forward_features
          (approximateFull (fun _ _ => 0) f_sine act_tanh "tanh" [64] 1 0 0).x_grid
          (approximateFull (fun _ _ => 0) f_sine act_tanh "tanh" [64] 1 0 0).params
          act_tanh ∧
      (approximateFull (fun _ _ => 0) f_sine act_tanh "tanh" [64] 1 0 0).rng_after_params.trace.length =
        (approximateFull (fun _ _ => 0) f_sine act_tanh "tanh" [64] 1 0 0).rng_after_noise.trace.length +
          2 * ([64] : List ℕ).length := by
  have h := approximate_shared_params (fun _ _ => 0) f_sine act_tanh "tanh"
    [64] 1 0 0 _ rfl
  exact ⟨rfl, h.1, h.2.1, h.2.2.1, h.2.2.2⟩

/-! ### C6 -/

/-- C6: serving requests is a pure map with no cross-request state, so
two evaluation calls carrying the same resolved inputs (with zero
noise) receive identical responses — grid x-values, ground truth,
predictions, MSE and echoed parameters included. -/
theorem serve_deterministic (oracle : ℤ → ℕ → ℝ) (reqs : List Request)
    (i j : ℕ) (hi : i < reqs.length) (hj : j < reqs.length)
    (hsi : i < (serve oracle reqs).length)
    (hsj : j < (serve oracle reqs).length)
    (heq : reqs.get ⟨i, hi⟩ = reqs.get ⟨j, hj⟩)
    (_hnoise : (reqs.get ⟨i, hi⟩).noise = 0) :
    (serve oracle reqs).get ⟨i, hsi⟩ = (serve oracle reqs).get ⟨j, hsj⟩ := by
  have hmap : ∀ (k : ℕ) (hk : k < reqs.length)
      (hsk : k < (serve oracle reqs).length),
      (serve oracle reqs).get ⟨k, hsk⟩ = handle oracle (reqs.get ⟨k, hk⟩) := by
    intro k hk hsk
    simp [serve, List.get_eq_getElem, List.getElem_map]
  rw [hmap i hi hsi, hmap j hj hsj, heq]

theorem serve_deterministic_witness :
    (serve (fun _ _ => 0)
        [⟨"sine", "tanh", "64".toList, 0.001, 0, 0⟩,
         ⟨"sine", "tanh", "64".toList, 0.001, 0, 0⟩]).get
        ⟨0, by simp [serve]⟩ =
      (serve (fun _ _ => 0)
        [⟨"sine", "tanh", "64".toList, 0.001, 0, 0⟩,
         ⟨"sine", "tanh", "64".toList, 0.001, 0, 0⟩]).get
        ⟨1, by simp [serve]⟩ :=
  serve_deterministic (fun _ _ => 0) _ 0 1 (by simp) (by simp)
    (by simp [serve]) (by simp [serve]) rfl rfl

/-! ### C8 -/

/-- C8: every evaluation call trains on `linspace 0 1 512` — 512
evenly spaced points with endpoints 0 and 1 and constant step `1/511` —
and evaluates on `make_grid 500 = linspace 0 1 500` — whose 500 points
(the route returns exactly 500 of them) span `[0, 1]` inclusive with
constant step `1/499`. -/
theorem approximate_grids (oracle : ℤ → ℕ → ℝ) (f act_fn : ℝ → ℝ)
    (act_key : String) (sizes : List ℕ) (lam : ℝ) (seed : ℤ)
    (noise_std : ℝ) :
    (approximateFull oracle f act_fn act_key sizes lam seed noise_std).x_train =
        linspace 0 1 512 ∧
      (approximateFull oracle f act_fn act_key sizes lam seed noise_std).x_grid =
        make_grid 500 ∧
      (List.ofFn (fun i : Fin 500 =>
        (approximateFull oracle f act_fn act_key sizes lam seed noise_std).x_grid
          i)).length = 500 ∧
      linspace 0 1 512 0 = 0 ∧ linspace 0 1 512 511 = 1 ∧
      make_grid 500 0 = 0 ∧ make_grid 500 499 = 1 ∧
      (∀ i : ℕ, i + 1 < 512 →
        linspace 0 1 512 (i + 1) - linspace 0 1 512 i = 1 / 511) ∧
      (∀ i : ℕ, i + 1 < 500 →
        make_grid 500 (i + 1) - make_grid 500 i = 1 / 499) := by
  refine ⟨rfl, rfl, List.length_ofFn _, by norm_num [linspace], by norm_num [linspace],
    by norm_num [make_grid, linspace], by norm_num [make_grid, linspace],
    ?_, ?_⟩ <;>
  · intro i hi
    simp only [make_grid, linspace]
    push_cast
    ring

theorem approximate_grids_witness :
    ((0 : ℕ) + 1 < 512 ∧ (0 : ℕ) + 1 < 500) ∧
      ((approximateFull (fun _ _ => 0) f_abs act_relu "relu" [50] 0.001 0 0).x_train =
          linspace 0 1 512 ∧
        linspace 0 1 512 (0 + 1) - linspace 0 1 512 0 = 1 / 511 ∧
        make_grid 500 (0 + 1) - make_grid 500 0 = 1 / 499) := by
  have h := approximate_grids (fun _ _ => 0) f_abs act_relu "relu" [50] 0.001 0 0
  exact ⟨⟨by norm_num, by norm_num⟩,
    h.1, h.2.2.2.2.2.2.2.1 0 (by norm_num), h.2.2.2.2.2.2.2.2 0 (by norm_num)⟩

/-! ### C4 -/

theorem fit_ridge_vec (N W : ℕ) (Phi : MatF) (y : ℕ → ℝ) (lam : ℝ) :
    (fun j : Fin (W + 1) => fit_ridge_closed_form N W Phi y lam j) =
      (ridgeA N W Phi lam)⁻¹ *ᵥ ridgeB N W Phi y := by
  funext j
  simp only [fit_ridge_closed_form, j.isLt, dif_pos, Fin.eta]

theorem ridge_solves (N W : ℕ) (Phi : MatF) (y : ℕ → ℝ) (lam : ℝ)
    (h : IsUnit (ridgeA N W Phi lam).det) :
    ridgeA N W Phi lam *ᵥ
        (fun j : Fin (W + 1) => fit_ridge_closed_form N W Phi y lam j) =
      ridgeB N W Phi y := by
  rw [fit_ridge_vec, mulVec_mulVec, Matrix.mul_nonsing_inv _ h, one_mulVec]

/-- C4: whenever the normal-equations matrix is invertible (the case in
which numpy's solve returns), the fitter's result solves
`(Phi_aug.T Phi_aug + lam I) w = Phi_aug.T y`, where `Phi_aug` is `Phi`
with a column of ones prepended (so index 0 of the weight vector is the
bias coefficient), and the result is supported on exactly the `W + 1`
indices `0..W`. -/
theorem fit_ridge_normal_equations (N W : ℕ) (Phi : MatF) (y : ℕ → ℝ)
    (lam : ℝ) (h : IsUnit (ridgeA N W Phi lam).det) :
    ridgeA N W Phi lam *ᵥ
        (fun j : Fin (W + 1) => fit_ridge_closed_form N W Phi y lam j) =
      ridgeB N W Phi y ∧
      (∀ i : ℕ, augment Phi i 0 = 1) ∧
      (∀ i k : ℕ, augment Phi i (k + 1) = Phi i k) ∧
      (∀ j : ℕ, W + 1 ≤ j → fit_ridge_closed_form N W Phi y lam j = 0) := by
  refine ⟨ridge_solves N W Phi y lam h, fun i => rfl, fun i k => ?_,
    fun j hj => ?_⟩
  · simp [augment]
  · simp only [fit_ridge_closed_form]
    rw [dif_neg (by omega)]

theorem ridgeA_one_one (lam : ℝ) :
    ridgeA 1 1 (fun _ _ => 1) lam = !![1 + lam, 1; 1, 1 + lam] := by
  ext i j
  fin_cases i <;> fin_cases j <;>
    simp [ridgeA, augment, Finset.sum_range_one]

theorem ridgeA_one_one_det (lam : ℝ) :
    (ridgeA 1 1 (fun _ _ => 1) lam).det = lam ^ 2 + 2 * lam := by
  rw [ridgeA_one_one, Matrix.det_fin_two_of]
  ring

theorem fit_ridge_normal_equations_witness :
    IsUnit ((ridgeA 1 1 (fun _ _ => 1) 1).det) ∧
      (ridgeA 1 1 (fun _ _ => 1) 1 *ᵥ
          (fun j : Fin 2 =>
            fit_ridge_closed_form 1 1 (fun _ _ => 1) (fun _ => 1) 1 j) =
        ridgeB 1 1 (fun _ _ => 1) (fun _ => 1) ∧
        (∀ i : ℕ, augment (fun _ _ => 1) i 0 = 1) ∧
        (∀ i k : ℕ, augment (fun _ _ => 1) i (k + 1) = (fun _ _ => (1 : ℝ)) i k) ∧
        (∀ j : ℕ, 1 + 1 ≤ j →
          fit_ridge_closed_form 1 1 (fun _ _ => 1) (fun _ => 1) 1 j = 0)) := by
  have hu : IsUnit ((ridgeA 1 1 (fun _ _ => 1) 1).det) := by
    rw [ridgeA_one_one_det]
    exact isUnit_iff_ne_zero.mpr (by norm_num)
  exact ⟨hu, fit_ridge_normal_equations 1 1 (fun _ _ => 1) (fun _ => 1) 1 hu⟩


/-! ### C7 -/

theorem dot_self_nonneg {m : ℕ} (v : Fin m → ℝ) : 0 ≤ v ⬝ᵥ v :=
  Finset.sum_nonneg fun i _ => mul_self_nonneg (v i)

theorem fit_ridge_one_one (lam : ℝ) (h0 : lam ≠ 0) (h2 : lam + 2 ≠ 0) :
    ∀ j : Fin 2,
      fit_ridge_closed_form 1 1 (fun _ _ => 1) (fun _ => 1) lam j =
        1 / (lam + 2) := by
  have hb : ridgeB 1 1 (fun _ _ => 1) (fun _ => 1) = ![1, 1] := by
    funext j
    fin_cases j <;> simp [ridgeB, augment, Finset.sum_range_one]
  have hvec : (fun j : Fin 2 =>
      fit_ridge_closed_form 1 1 (fun _ _ => 1) (fun _ => 1) lam j) =
      (ridgeA 1 1 (fun _ _ => 1) lam)⁻¹ *ᵥ ridgeB 1 1 (fun _ _ => 1) (fun _ => 1) :=
    fit_ridge_vec 1 1 _ _ lam
  have hdet : (ridgeA 1 1 (fun _ _ => 1) lam).det = lam ^ 2 + 2 * lam :=
    ridgeA_one_one_det lam
  have hinv : (ridgeA 1 1 (fun _ _ => 1) lam)⁻¹ =
      (lam ^ 2 + 2 * lam)⁻¹ • !![1 + lam, -1; -1, 1 + lam] := by
    rw [Matrix.inv_def, hdet, ridgeA_one_one, Matrix.adjugate_fin_two_of,
      Ring.inverse_eq_inv]
  intro j
  have hj := congrFun hvec j
  rw [hj, hinv, hb]
  have hmul : (!![1 + lam, -1; -1, 1 + lam] *ᵥ ![1, 1]) = ![lam, lam] := by
    funext i
    fin_cases i <;>
      simp [Matrix.mulVec, Matrix.dotProduct, Fin.sum_univ_two]
  rw [Matrix.smul_mulVec_assoc, hmul]
  have hprod : lam ^ 2 + 2 * lam ≠ 0 := by
    rw [show lam ^ 2 + 2 * lam = lam * (lam + 2) from by ring]
    exact mul_ne_zero h0 h2
  fin_cases j <;>
    · simp [Matrix.smul_apply]
      field_simp
      ring

theorem sqnorm_fit_one_one (lam : ℝ) (h0 : lam ≠ 0) (h2 : lam + 2 ≠ 0) :
    sqnorm 1 (fit_ridge_closed_form 1 1 (fun _ _ => 1) (fun _ => 1) lam) =
      2 / (lam + 2) ^ 2 := by
  have h := fit_ridge_one_one lam h0 h2
  have h0' := h 0
  have h1' := h 1
  simp only [sqnorm]
  rw [Finset.sum_range_succ, Finset.sum_range_one]
  have e0 : fit_ridge_closed_form 1 1 (fun _ _ => 1) (fun _ => 1) lam 0 =
      1 / (lam + 2) := h0'
  have e1 : fit_ridge_closed_form 1 1 (fun _ _ => 1) (fun _ => 1) lam 1 =
      1 / (lam + 2) := h1'
  rw [e0, e1]
  field_simp
  ring

theorem ridgeA_eq_normal (N W : ℕ) (Phi : MatF) (lam : ℝ) :
    ridgeA N W Phi lam = (augMat N W Phi)ᵀ * augMat N W Phi + lam • 1 := by
  ext i j
  simp only [ridgeA, Matrix.add_apply, Matrix.mul_apply, Matrix.transpose_apply,
    Matrix.smul_apply, Matrix.one_apply, augMat, smul_eq_mul]
  rw [← Fin.sum_univ_eq_sum_range (fun t => augment Phi t i * augment Phi t j) N]

theorem ridgeB_eq_normal (N W : ℕ) (Phi : MatF) (y : ℕ → ℝ) :
    ridgeB N W Phi y = (augMat N W Phi)ᵀ *ᵥ (fun t : Fin N => y t) := by
  funext j
  simp only [ridgeB, Matrix.mulVec, Matrix.dotProduct, Matrix.transpose_apply,
    augMat]
  rw [← Fin.sum_univ_eq_sum_range (fun t => augment Phi t j * y t) N]

theorem ridge_objective_min {n m : ℕ} (X : Matrix (Fin n) (Fin m) ℝ)
    (y : Fin n → ℝ) (lam : ℝ) (hlam : 0 ≤ lam) (w v : Fin m → ℝ)
    (hw : (Xᵀ * X + lam • 1) *ᵥ w = Xᵀ *ᵥ y) :
    (X *ᵥ w - y) ⬝ᵥ (X *ᵥ w - y) + lam * (w ⬝ᵥ w) ≤
      (X *ᵥ v - y) ⬝ᵥ (X *ᵥ v - y) + lam * (v ⬝ᵥ v) := by
  have hne : (Xᵀ * X) *ᵥ w + lam • w = Xᵀ *ᵥ y := by
    rw [← hw, Matrix.add_mulVec, Matrix.smul_mulVec_assoc, Matrix.one_mulVec]
  have hXTe : Xᵀ *ᵥ (X *ᵥ w - y) = -(lam • w) := by
    rw [Matrix.mulVec_sub, Matrix.mulVec_mulVec, ← hne]
    abel
  have hv : v = w + (v - w) := by abel
  have hXv : X *ᵥ v - y = (X *ᵥ w - y) + X *ᵥ (v - w) := by
    rw [hv, Matrix.mulVec_add]
    abel
  have hcross : (X *ᵥ w - y) ⬝ᵥ (X *ᵥ (v - w)) = -(lam * (w ⬝ᵥ (v - w))) := by
    rw [Matrix.dotProduct_mulVec, ← Matrix.mulVec_transpose, hXTe]
    rw [Matrix.neg_dotProduct, Matrix.smul_dotProduct, smul_eq_mul]
  have hu : 0 ≤ (X *ᵥ (v - w)) ⬝ᵥ (X *ᵥ (v - w)) := dot_self_nonneg _
  have hdd : 0 ≤ (v - w) ⬝ᵥ (v - w) := dot_self_nonneg _
  have hrw : (X *ᵥ v - y) ⬝ᵥ (X *ᵥ v - y) =
      (X *ᵥ w - y) ⬝ᵥ (X *ᵥ w - y) +
        2 * ((X *ᵥ w - y) ⬝ᵥ (X *ᵥ (v - w))) +
        (X *ᵥ (v - w)) ⬝ᵥ (X *ᵥ (v - w)) := by
    rw [hXv, Matrix.add_dotProduct, Matrix.dotProduct_add, Matrix.dotProduct_add,
      Matrix.dotProduct_comm (X *ᵥ (v - w)) (X *ᵥ w - y)]
    ring
  have hvv : v ⬝ᵥ v = w ⬝ᵥ w + 2 * (w ⬝ᵥ (v - w)) + (v - w) ⬝ᵥ (v - w) := by
    nth_rewrite 1 [hv]
    nth_rewrite 2 [hv]
    rw [Matrix.add_dotProduct, Matrix.dotProduct_add, Matrix.dotProduct_add,
      Matrix.dotProduct_comm (v - w) w]
    ring
  rw [hrw, hvv, hcross]
  have hld : 0 ≤ lam * ((v - w) ⬝ᵥ (v - w)) := mul_nonneg hlam hdd
  nlinarith [hu, hld]

/-- C7 amended: for a fixed feature matrix and target vector, and
`0 ≤ lam1 < lam2` with both normal-equations systems nonsingular,
increasing the regularization does not increase the fitted weight
vector's (squared Euclidean) norm — ridge shrinkage, the reverse of the
claim's stated direction. -/
theorem fit_ridge_shrinkage (N W : ℕ) (Phi : MatF) (y : ℕ → ℝ)
    (lam1 lam2 : ℝ) (h0 : 0 ≤ lam1) (hlt : lam1 < lam2)
    (hu1 : IsUnit (ridgeA N W Phi lam1).det)
    (hu2 : IsUnit (ridgeA N W Phi lam2).det) :
    sqnorm W (fit_ridge_closed_form N W Phi y lam2) ≤
      sqnorm W (fit_ridge_closed_form N W Phi y lam1) := by
  set X := augMat N W Phi with hX
  set yv := (fun t : Fin N => y t) with hyv
  set w1 := (fun j : Fin (W + 1) => fit_ridge_closed_form N W Phi y lam1 j) with hw1d
  set w2 := (fun j : Fin (W + 1) => fit_ridge_closed_form N W Phi y lam2 j) with hw2d
  have hw1 : (Xᵀ * X + lam1 • 1) *ᵥ w1 = Xᵀ *ᵥ yv := by
    rw [hX, ← ridgeA_eq_normal, ← ridgeB_eq_normal]
    exact ridge_solves N W Phi y lam1 hu1
  have hw2 : (Xᵀ * X + lam2 • 1) *ᵥ w2 = Xᵀ *ᵥ yv := by
    rw [hX, ← ridgeA_eq_normal, ← ridgeB_eq_normal]
    exact ridge_solves N W Phi y lam2 hu2
  have k1 := ridge_objective_min X yv lam1 h0 w1 w2 hw1
  have k2 := ridge_objective_min X yv lam2 (by linarith) w2 w1 hw2
  have hs1 : sqnorm W (fit_ridge_closed_form N W Phi y lam1) = w1 ⬝ᵥ w1 := by
    simp only [sqnorm, Matrix.dotProduct, hw1d]
    rw [← Fin.sum_univ_eq_sum_range
      (fun j => fit_ridge_closed_form N W Phi y lam1 j ^ 2) (W + 1)]
    exact Finset.sum_congr rfl fun j _ => pow_two _
  have hs2 : sqnorm W (fit_ridge_closed_form N W Phi y lam2) = w2 ⬝ᵥ w2 := by
    simp only [sqnorm, Matrix.dotProduct, hw2d]
    rw [← Fin.sum_univ_eq_sum_range
      (fun j => fit_ridge_closed_form N W Phi y lam2 j ^ 2) (W + 1)]
    exact Finset.sum_congr rfl fun j _ => pow_two _
  rw [hs1, hs2]
  by_contra hcon
  push_neg at hcon
  nlinarith [k1, k2, mul_pos (sub_pos.mpr hlt) (sub_pos.mpr hcon)]

/-- C7 counterexample: increasing the regularization strength does
decrease the fitted weight norm. With `Phi = [[1]]`, `y = [1]`, the fit
at `lam = 2` has a strictly smaller squared norm (`1/8`) than the fit
at `lam = 1` (`2/9`), refuting "the norm of the weight vector fitted
with the larger λ is not smaller". -/
theorem ridge_shrinkage_counterexample :
    sqnorm 1 (fit_ridge_closed_form 1 1 (fun _ _ => 1) (fun _ => 1) 2) <
      sqnorm 1 (fit_ridge_closed_form 1 1 (fun _ _ => 1) (fun _ => 1) 1) := by
  rw [sqnorm_fit_one_one 1 (by norm_num) (by norm_num),
    sqnorm_fit_one_one 2 (by norm_num) (by norm_num)]
  norm_num

theorem fit_ridge_shrinkage_witness :
    ((0 : ℝ) ≤ 1 ∧ (1 : ℝ) < 2 ∧
        IsUnit ((ridgeA 1 1 (fun _ _ => 1) 1).det) ∧
        IsUnit ((ridgeA 1 1 (fun _ _ => 1) 2).det)) ∧
      sqnorm 1 (fit_ridge_closed_form 1 1 (fun _ _ => 1) (fun _ => 1) 2) ≤
        sqnorm 1 (fit_ridge_closed_form 1 1 (fun _ _ => 1) (fun _ => 1) 1) := by
  have hu1 : IsUnit ((ridgeA 1 1 (fun _ _ => 1) 1).det) := by
    rw [ridgeA_one_one_det]
    exact isUnit_iff_ne_zero.mpr (by norm_num)
  have hu2 : IsUnit ((ridgeA 1 1 (fun _ _ => 1) 2).det) := by
    rw [ridgeA_one_one_det]
    exact isUnit_iff_ne_zero.mpr (by norm_num)
  exact ⟨⟨by norm_num, by norm_num, hu1, hu2⟩,
    fit_ridge_shrinkage 1 1 (fun _ _ => 1) (fun _ => 1) 1 2 (by norm_num)
      (by norm_num) hu1 hu2⟩
